import Mathlib

set_option maxRecDepth 100000

/-!
Verification development for the MARVEL `LAfix` patch-planning engine
(`src/scrub/LAfix.c`).  The per-read pipeline is embedded shallowly:
overlaps, tracks and reads become explicit data, each C phase becomes an
executable Lean function mirroring the source loop structure, and the
claims of the specification are settled as theorems about these functions.

Numeric conventions: all C `int` coordinates are modelled as `Int`; `/` is
used for C integer division (the program only divides nonnegative
quantities, where the two semantics agree); reads and tracks out of the
modelled range are read as `0`, mirroring that the C code never touches
them on well-formed inputs.
-/

/-- Alignment path of one overlap: A-range, B-range and the unpacked trace
array (pairs of (diffs, B-bases) flattened; `tlen` is the list length). -/
structure OvlPath where
  abpos : Int
  aepos : Int
  bbpos : Int
  bepos : Int
  trace : List Int
deriving Repr, DecidableEq

/-- One overlap record of the A-read group (flags reduced to the COMP bit). -/
structure Overlap where
  aread : Int
  bread : Int
  comp : Bool
  path : OvlPath
deriving Repr, DecidableEq

instance : Inhabited Overlap := ⟨⟨0, 0, false, ⟨0, 0, 0, 0, []⟩⟩⟩

/-- Information on a gap/weak region (struct `Gap` of LAfix.c). -/
structure Gap where
  ab : Int
  ae : Int
  bb : Int
  be : Int
  diff : Int
  b : Int
  support : Int
  span : Int
  comp : Bool
deriving Repr, DecidableEq

instance : Inhabited Gap := ⟨⟨0, 0, 0, 0, 0, 0, 0, 0, false⟩⟩

/-- The database and track state a single `fix_process` call reads:
read lengths, per-read base bytes, the per-segment Q track, the dust
interval track, the optional trim track, and the base-complement function
of the external `SeqOps`/`revcomp` utility (kept abstract as data). -/
structure DBModel where
  readLen : Int → Int
  readOf : Int → Int → Int
  qtrack : Int → List Int
  dust : Int → List (Int × Int)
  trimOf : Option (Int → Int × Int)
  cpl : Int → Int

/-- The command-line configuration of one run. -/
structure FixConfig where
  twidth : Int
  minlen : Int
  lowq : Int
  maxgap : Int
deriving Repr, DecidableEq

/-- Modelled from the spec: the interval intersection helper of
`lib/utils` (not part of src/); two ranges intersect when neither is
entirely to one side of the other. -/
def intersect (ab ae bb be : Int) : Bool :=
  decide (ab < be) && decide (bb < ae)

/-- `spanners(ovls, novl, b, e)`: number of overlaps whose A-range extends
more than `MIN_SPAN = 400` bases beyond both `b` and `e`. -/
def spanners (ovls : List Overlap) (b e : Int) : Int :=
  ovls.foldl (fun acc o =>
    if o.path.abpos < b - 400 ∧ o.path.aepos > e + 400 then acc + 1 else acc) 0

/-- First loop of `filter_flips`: find the index range `[b, e)` of
self-overlaps and count the COMP / non-COMP ones.  `e` stays `-1` unless a
`bread > aread` overlap is reached after a self-overlap was seen. -/
def selfScan (aread : Int) : List Overlap → Int → Int → Int → Int → Int × Int × Int × Int
  | [], _, b, sc, sn => (b, -1, sc, sn)
  | o :: rest, i, b, sc, sn =>
    if aread < o.bread then
      (b, if b ≠ -1 then i else -1, sc, sn)
    else if aread = o.bread then
      selfScan aread rest (i + 1) (if b = -1 then i else b)
        (if o.comp then sc + 1 else sc) (if o.comp then sn else sn + 1)
    else
      selfScan aread rest (i + 1) b sc sn

/-- Trim update of the per-segment diagonal-crossing branch of
`filter_flips`: drop the shorter side of the crossing segment. -/
def updateTrimSeg (sab sae : Int) (t : Int × Int) : Int × Int :=
  if t.1 < sab ∧ sae < t.2 then
    if sab - t.1 < t.2 - sae then (sae, t.2) else (t.1, sab)
  else t

/-- Trim update of the consecutive-pair gap branch of `filter_flips`:
pull the endpoint nearer to the gap midpoint onto the midpoint. -/
def updateTrimMid (mid : Int) (t : Int × Int) : Int × Int :=
  if t.1 < mid ∧ mid < t.2 then
    if mid - t.1 < t.2 - mid then (mid, t.2) else (t.1, mid)
  else t

/-- Trace walk of `filter_flips`: step the segment window `[sab,sae)` x
`[sbb,sbe)` over the trace (`j = 2, 4, …` while `j < tlen - 2`), flagging
and trimming whenever the A-segment meets its flipped B-range.  `fuel`
bounds the iteration count (callers pass the trace length, which always
suffices since `j` advances by 2). -/
def segLoop (w alen : Int) (trace : List Int) (tlen : Int) :
    Nat → Int → Int → Int → Int → Int → Bool × Int × Int → Bool × Int × Int
  | 0, _, _, _, _, _, st => st
  | fuel + 1, j, sab, sae, sbb, sbe, st =>
    if j < tlen - 2 then
      let st' :=
        if intersect sab sae (alen - sbe) (alen - sbb) then
          let t := updateTrimSeg sab sae (st.2.1, st.2.2)
          (true, t.1, t.2)
        else st
      segLoop w alen trace tlen fuel (j + 2) sae (sae + w) sbe
        (sbe + trace.getD (j + 1).toNat 0) st'
    else st

/-- Per-overlap body of the first `filter_flips` loop: for a COMP
self-overlap whose A-range meets its forward-strand B-range, walk the
trace segments. -/
def flipWalk (w alen : Int) (o : Overlap) (st : Bool × Int × Int) : Bool × Int × Int :=
  if o.comp then
    if intersect o.path.abpos o.path.aepos (alen - o.path.bepos) (alen - o.path.bbpos) then
      let sab := o.path.abpos
      let sae := (sab / w + 1) * w
      let sbb := o.path.bbpos
      let sbe := sbb + o.path.trace.getD 1 0
      segLoop w alen o.path.trace (o.path.trace.length : Int) o.path.trace.length
        2 sab sae sbb sbe st
    else st
  else st

/-- First `filter_flips` loop over the self-overlap index range `[i, e)`
(`fuel` = remaining iterations, passed as `(e - i).toNat`). -/
def ovlLoop (w alen : Int) (ovls : List Overlap) :
    Nat → Int → Int → Bool × Int × Int → Bool × Int × Int
  | 0, _, _, st => st
  | fuel + 1, i, e, st =>
    if i < e then
      ovlLoop w alen ovls fuel (i + 1) e (flipWalk w alen (ovls.getD i.toNat default) st)
    else st

/-- Second `filter_flips` loop over consecutive COMP self-overlap pairs in
`[i, e - 1)`: trim at the midpoint of a gap that meets its flipped B-range
and is spanned by at most one foreign overlap. -/
def pairLoop (alen : Int) (ovls : List Overlap) :
    Nat → Int → Int → Bool × Int × Int → Bool × Int × Int
  | 0, _, _, st => st
  | fuel + 1, i, e, st =>
    if i < e - 1 then
      let o := ovls.getD i.toNat default
      let o2 := ovls.getD (i + 1).toNat default
      let st' :=
        if o.comp ∧ o2.comp then
          let ab := o.path.aepos
          let ae := o2.path.abpos
          let ab_c := alen - o2.path.bbpos
          let ae_c := alen - o.path.bepos
          if intersect ab ae ab_c ae_c ∧ spanners ovls ab ae ≤ 1 then
            let t := updateTrimMid ((ab + ae) / 2) (st.2.1, st.2.2)
            (true, t.1, t.2)
          else st
        else st
      pairLoop alen ovls fuel (i + 1) e st'
    else st

/-- `filter_flips` of LAfix.c: returns the `trimmed` flag and the
possibly tightened trim interval. -/
def filter_flips (db : DBModel) (w : Int) (ovls : List Overlap)
    (trim_b trim_e : Int) : Bool × Int × Int :=
  match ovls with
  | [] => (false, trim_b, trim_e)
  | o0 :: _ =>
    let aread := o0.aread
    let r := selfScan aread ovls 0 (-1) 0 0
    if r.2.2.1 = 0 then (false, trim_b, trim_e)
    else
      let alen := db.readLen aread
      let st := ovlLoop w alen ovls (r.2.1 - r.1).toNat r.1 r.2.1 (false, trim_b, trim_e)
      pairLoop alen ovls (r.2.1 - 1 - r.1).toNat r.1 r.2.1 st

/-- The trim interval `fix_process` works with after the flip filter:
the intersection of the original trim with the flip-adjusted one
(`trim_ab = MAX(flips_trim_b, trim_ab)`, `trim_ae = MIN(flips_trim_e, trim_ae)`). -/
def postFlipTrim (db : DBModel) (w : Int) (ovls : List Overlap)
    (trim_ab trim_ae : Int) : Int × Int :=
  let r := filter_flips db w ovls trim_ab trim_ae
  (max r.2.1 trim_ab, min r.2.2 trim_ae)

/-- Candidate construction for one consecutive overlap pair of the
GapFinder loop of `fix_process` (same `bread`, identical COMP bit, gap in
A): outward segment rounding in A, trace-bracketed B-interval, forward
strand flip, dust veto, B-quality veto. -/
def mkGapCand (db : DBModel) (w : Int) (prev o : Overlap) : Option Gap :=
  if prev.bread = o.bread ∧ prev.path.aepos < o.path.abpos ∧ prev.comp = o.comp then
    let ab := (prev.path.aepos - 1) / w
    let ae := o.path.abpos / w + 1
    let bb0 := prev.path.bepos - prev.path.trace.getD (prev.path.trace.length - 1) 0
    let be0 := o.path.bbpos + o.path.trace.getD 1 0
    if bb0 ≥ be0 then none
    else
      let blen := db.readLen o.bread
      let bb := if o.comp then blen - be0 else bb0
      let be := if o.comp then blen - bb0 else be0
      if (db.dust o.bread).any (fun d => decide (bb ≤ d.1) && decide (be ≥ d.2)) then none
      else
        let qb := db.qtrack o.bread
        let beg := bb / w
        let en := be / w + 1
        if (List.range (en - beg).toNat).any (fun k => qb.getD (beg + (k : Int)).toNat 0 = 0) then none
        else
          let q := (List.range (en - beg).toNat).foldl
            (fun acc k => acc + qb.getD (beg + (k : Int)).toNat 0) 0
          some ⟨ab * w, ae * w, bb, be, 100 * q / (be - bb), o.bread, 1, 0, o.comp⟩
  else none

/-- GapFinder scan over consecutive overlap pairs (`i` from 1 to
`novl - 1`, comparing `ovl[i-1]` with `ovl[i]`). -/
def gapScan (db : DBModel) (w : Int) : Overlap → List Overlap → List Gap
  | _, [] => []
  | prev, o :: rest =>
    match mkGapCand db w prev o with
    | some g => g :: gapScan db w o rest
    | none => gapScan db w o rest

/-- All candidates the GapFinder phase of `fix_process` produces. -/
def gapCandidates (db : DBModel) (w : Int) : List Overlap → List Gap
  | [] => []
  | o :: rest => gapScan db w o rest

/-- `cmp_gaps` of LAfix.c: order candidates by `ab`, then `ae`, then `diff`. -/
def cmp_gaps (a b : Gap) : Int :=
  if a.ab - b.ab ≠ 0 then a.ab - b.ab
  else if a.ae - b.ae ≠ 0 then a.ae - b.ae
  else a.diff - b.diff

/-- Ordered insertion under the `cmp_gaps` order (the model of `qsort`). -/
def insertGap (g : Gap) : List Gap → List Gap
  | [] => [g]
  | h :: t => if cmp_gaps g h ≤ 0 then g :: h :: t else h :: insertGap g t

/-- Sort candidates by `cmp_gaps` (the model of the `qsort` calls). -/
def sortGaps : List Gap → List Gap
  | [] => []
  | g :: t => insertGap g (sortGaps t)

/-- Inner loop of the duplicate-merge phase: fold every following
candidate with the same `(ab, ae)` whose B-length differs by `< 40` into
the current one, tombstoning it with `support = -1`. -/
def dupFold (g : Gap) : List Gap → Gap × List Gap
  | [] => (g, [])
  | h :: t =>
    if h.ab = g.ab ∧ h.ae = g.ae then
      if h.support = -1 then
        let r := dupFold g t
        (r.1, h :: r.2)
      else if |(h.be - h.bb) - (g.be - g.bb)| < 40 then
        let r := dupFold { g with support := g.support + 1 } t
        (r.1, { h with support := -1 } :: r.2)
      else
        let r := dupFold g t
        (r.1, h :: r.2)
    else (g, h :: t)

/-- Duplicate-merge phase of `fix_process` (also the only place the
`maxgap` cap is applied): a live candidate failing
`ae - ab < maxgap ∧ |be - bb| < maxgap` is tombstoned, otherwise its
co-located duplicates are folded into it.  The `fuel` argument counts the
remaining iterations of the C outer loop (`i` up to `dcur`); callers pass
the list length, which `dupFold` preserves. -/
def mergeDupsLoop (maxgap : Int) : Nat → List Gap → List Gap
  | _, [] => []
  | 0, l => l
  | fuel + 1, g :: rest =>
    if g.support = -1 then g :: mergeDupsLoop maxgap fuel rest
    else if maxgap ≠ -1 ∧ (g.ae - g.ab ≥ maxgap ∨ |g.be - g.bb| ≥ maxgap) then
      { g with support := -1 } :: mergeDupsLoop maxgap fuel rest
    else
      let r := dupFold g rest
      r.1 :: mergeDupsLoop maxgap fuel r.2

/-- Inner loop of the overlapping-merge phase: scan following candidates
whose A-range intersects the current one; the one with larger support
absorbs the other (first wins ties), the loser is tombstoned; `none`
means the current candidate lost. -/
def ovlFold (g : Gap) : List Gap → Option Gap × List Gap
  | [] => (some g, [])
  | h :: t =>
    if g.ae > h.ab ∧ g.ab < h.ae then
      if h.support = -1 then
        let r := ovlFold g t
        (r.1, h :: r.2)
      else if g.support > h.support then
        let r := ovlFold { g with support := g.support + h.support } t
        (r.1, { h with support := -1 } :: r.2)
      else (none, { h with support := h.support + g.support } :: t)
    else (some g, h :: t)

/-- Overlapping-merge phase of `fix_process` (`fuel` as in
`mergeDupsLoop`). -/
def mergeOvlLoop : Nat → List Gap → List Gap
  | _, [] => []
  | 0, l => l
  | fuel + 1, g :: rest =>
    if g.support = -1 then g :: mergeOvlLoop fuel rest
    else
      match ovlFold g rest with
      | (some g', rest') => g' :: mergeOvlLoop fuel rest'
      | (none, rest') => { g with support := -1 } :: mergeOvlLoop fuel rest'

/-- Spanner filter of `fix_process`: tombstone candidates whose A-range is
spanned by more than 10 overlaps. -/
def spanFilter (ovls : List Overlap) (l : List Gap) : List Gap :=
  l.map (fun g => if spanners ovls g.ab g.ae > 10 then { g with support := -1 } else g)

/-- A-quality test of the support/Q compaction: some A-segment under the
candidate has `Q = 0` or `Q ≥ lowq`. -/
def badQ (qa : List Int) (w lowq : Int) (g : Gap) : Bool :=
  (List.range (g.ae / w - g.ab / w).toNat).any (fun k =>
    let v := qa.getD (g.ab / w + (k : Int)).toNat 0
    decide (v = 0) || decide (v ≥ lowq))

/-- Compaction phase of `fix_process`: keep only candidates with
`support ≥ 5` and a bad A-quality segment. -/
def compactGaps (qa : List Int) (w lowq : Int) (l : List Gap) : List Gap :=
  l.filter (fun g => decide (g.support ≥ 5) && badQ qa w lowq g)

/-- The candidate list after the whole merger of `fix_process`
(sort, duplicate merge with the `maxgap` cap, overlapping merge, spanner
filter, support/Q compaction) and before the weak-region scan. -/
def mergedGapCandidates (db : DBModel) (cfg : FixConfig) (ovls : List Overlap) : List Gap :=
  let aread := (ovls.headD default).aread
  let qa := db.qtrack aread
  let sorted := sortGaps (gapCandidates db cfg.twidth ovls)
  let afterDup := mergeDupsLoop cfg.maxgap sorted.length sorted
  let afterOvl := mergeOvlLoop afterDup.length afterDup
  compactGaps qa cfg.twidth cfg.lowq (spanFilter ovls afterOvl)

/-- Trace walk of the WeakFinder donor search: advance `apos` one
A-segment boundary at a time while `apos ≤ ab`, accumulating the bracketed
B-interval `[bb, be)` from the trace (access clamped to the trace array). -/
def traceWalk (w : Int) (trace : List Int) (ab : Int) :
    Nat → Int → Int → Int → Nat → Int × Int
  | 0, _, bb, be, _ => (bb, be)
  | fuel + 1, apos, bb, be, k =>
    if apos ≤ ab ∧ k < trace.length then
      traceWalk w trace ab fuel ((apos / w + 1) * w) be (be + trace.getD (k + 1) 0) (k + 2)
    else (bb, be)

/-- B-quality accumulation of the WeakFinder donor search: sum
`Q[b][k..en)`, with any zero segment zeroing the whole sum (the C loop
sets `q = 0` and breaks).  `fuel` is passed as `(en - k).toNat`. -/
def qSumB (qb : List Int) : Nat → Int → Int → Int → Int
  | 0, _, _, acc => acc
  | fuel + 1, k, en, acc =>
    if k < en then
      if qb.getD k.toNat 0 = 0 then 0
      else qSumB qb fuel (k + 1) en (acc + qb.getD k.toNat 0)
    else acc

/-- Running state of the WeakFinder donor search over one weak segment:
spanner and border counts and the best (minimum mean B-quality) donor so
far.  The C float mean `q / (end - beg)` is tracked exactly as the
fraction `qmn / qmd`. -/
structure DonorState where
  span : Int
  border : Int
  qmn : Int
  qmd : Int
  found : Bool
  bb : Int
  be : Int
  bread : Int
  comp : Bool
deriving Repr, DecidableEq

/-- Donor search of the WeakFinder for the weak A-segment `[ab, ae)`:
scan all overlaps, score the spanning ones by mean B-quality, and count
the bordering ones. -/
def donorScan (db : DBModel) (w : Int) (ovls : List Overlap) (ab ae : Int) : DonorState :=
  ovls.foldl (fun st o =>
    let onBorder : Bool :=
      (decide (o.path.abpos ≥ ab) && decide (o.path.abpos ≤ ae)) ||
      (decide (o.path.aepos ≥ ab) && decide (o.path.aepos ≤ ae))
    if o.path.abpos + 100 ≤ ab ∧ o.path.aepos - 100 ≥ ae then
      let wres := traceWalk w o.path.trace ab o.path.trace.length o.path.abpos (-1) o.path.bbpos 0
      let blen := db.readLen o.bread
      let bb := if o.comp then blen - wres.2 else wres.1
      let be := if o.comp then blen - wres.1 else wres.2
      let qb := db.qtrack o.bread
      let beg := bb / w
      let en := be / w
      let q := qSumB qb (en - beg).toNat beg en 0
      if q = 0 then st
      else
        let st1 :=
          if !st.found ∨ q * st.qmd < st.qmn * (en - beg) then
            { st with found := true, qmn := q, qmd := en - beg,
                      bb := bb, be := be, bread := o.bread, comp := o.comp }
          else st
        let st2 := { st1 with span := st1.span + 1 }
        if onBorder then { st2 with border := st2.border + 1 } else st2
    else
      if onBorder then { st with border := st.border + 1 } else st)
    ⟨0, 0, 0, 1, false, 0, 0, 0, false⟩

/-- Skip leading zero-Q segments (`while (qa[seg_first] == 0) seg_first++`,
stopped at the track end where the C code would walk into the next read). -/
def skipZeroFwd (qa : List Int) : Nat → Nat → Nat
  | 0, s => s
  | fuel + 1, s =>
    if s < qa.length ∧ qa.getD s 0 = 0 then skipZeroFwd qa fuel (s + 1) else s

/-- Skip trailing zero-Q segments (`while (qa[seg_last - 1] == 0) seg_last--`). -/
def skipZeroBwd (qa : List Int) : Nat → Nat
  | 0 => 0
  | s + 1 => if qa.getD s 0 = 0 then skipZeroBwd qa s else s + 1

/-- WeakFinder loop of `fix_process` over the interior segments
`[i, seg_last)`: a segment with `Q = 0` or `Q ≥ lowq` not touching an
existing candidate gets the best spanning donor appended as a candidate
(`support = border`, `diff` = truncated mean B-quality). -/
def weakLoop (db : DBModel) (w lowq : Int) (ovls : List Overlap) (qa : List Int) :
    Nat → Nat → Nat → List Gap → List Gap
  | 0, _, _, data => data
  | fuel + 1, i, segl, data =>
    if i < segl then
      let qi := qa.getD i 0
      if qi ≠ 0 ∧ qi < lowq then weakLoop db w lowq ovls qa fuel (i + 1) segl data
      else
        let ab := (i : Int) * w
        let ae := ((i : Int) + 1) * w
        if data.any (fun g => decide (g.ab ≤ ae) && decide (g.ae ≥ ab)) then
          weakLoop db w lowq ovls qa fuel (i + 1) segl data
        else
          let st := donorScan db w ovls ab ae
          if st.found then
            weakLoop db w lowq ovls qa fuel (i + 1) segl
              (data ++ [⟨ab, ae, st.bb, st.be, st.qmn / st.qmd, st.bread,
                         st.border, st.span, st.comp⟩])
          else weakLoop db w lowq ovls qa fuel (i + 1) segl data
    else data

/-- The A-read bytes `[ab, ae)` as copied by `memcpy(read + rlen,
fctx->reada + ab, ae - ab)`. -/
def aSlice (A : Int → Int) (ab ae : Int) : List Int :=
  (List.range (ae - ab).toNat).map (fun (k : Nat) => A (ab + (k : Int)))

/-- The donor bytes of candidate `g`: B-read bytes `[bb, be)`, reversed
and complemented in place when `g.comp` is set (`revcomp(readb + bb,
be - bb)` before the copy). -/
def bSlice (B : Int → Int → Int) (cpl : Int → Int) (g : Gap) : List Int :=
  (List.range (g.be - g.bb).toNat).map (fun (k : Nat) =>
    if g.comp then cpl (B g.b (g.be - 1 - (k : Int))) else B g.b (g.bb + (k : Int)))

/-- Tail emission of the patch loop (`ae = trim_ae; if (ab < ae) …`):
record the final retained A-interval and append its bytes. -/
def patchTail (A : Int → Int) (trim_ae ab : Int) (out : List Int)
    (patches : List (Int × Int × Int)) (donors : List Gap) :
    List Int × List (Int × Int × Int) × List Gap :=
  if ab < trim_ae then
    (out ++ aSlice A ab trim_ae, patches ++ [(ab, trim_ae, (out.length : Int))], donors)
  else (out, patches, donors)

/-- The patch loop of `fix_process` (lines 1059–1182): interleave retained
A-intervals (recorded in `apatches` as `(ab, ae, rlen)` triples) with
donor B-intervals.  Candidates before the trim are skipped, a candidate
past the trim breaks the loop, and the C `assert(ab <= ae)` is modelled as
`none`.  Also returns the candidates actually spliced. -/
def patchLoop (A : Int → Int) (B : Int → Int → Int) (cpl : Int → Int)
    (trim_ab trim_ae : Int) :
    List Gap → Int → List Int → List (Int × Int × Int) → List Gap →
    Option (List Int × List (Int × Int × Int) × List Gap)
  | [], ab, out, patches, donors => some (patchTail A trim_ae ab out patches donors)
  | g :: rest, ab, out, patches, donors =>
    if trim_ab > g.ab then
      patchLoop A B cpl trim_ab trim_ae rest g.ae out patches donors
    else if trim_ae < g.ae then
      some (patchTail A trim_ae ab out patches donors)
    else
      let ae := g.ab
      let ab1 := if trim_ab < ae ∧ trim_ab > ab then trim_ab else ab
      if ab1 ≤ ae then
        let patches1 := if ab1 < ae then patches ++ [(ab1, ae, (out.length : Int))] else patches
        let out1 := if ab1 < ae then out ++ aSlice A ab1 ae else out
        patchLoop A B cpl trim_ab trim_ae rest g.ae
          (out1 ++ bSlice B cpl g) patches1 (donors ++ [g])
      else none

/-- The Patcher: run the patch loop from cursor `trim_ab` with empty
output, splice map and donor list. -/
def patcher (A : Int → Int) (B : Int → Int → Int) (cpl : Int → Int)
    (trim_ab trim_ae : Int) (cands : List Gap) :
    Option (List Int × List (Int × Int × Int) × List Gap) :=
  patchLoop A B cpl trim_ab trim_ae cands trim_ab [] [] []

/-- Inner loop of the fixed-branch interval adjustment (lines 1235–1266):
walk the splice triples carrying the previous triple; `ib_adj` maps into
the first triple with `ib < ae`, `ie_adj` clips to the previous retain
block when `ie` falls before the current block, else maps into it. -/
def adjLoop (ib ie : Int) :
    List (Int × Int × Int) → Option (Int × Int × Int) → Int → Int → Int × Int
  | [], _, ibadj, ieadj => (ibadj, ieadj)
  | (ab, ae, o) :: rest, prev, ibadj, ieadj =>
    let ibadj1 := if ibadj = -1 ∧ ib < ae then o + (max ib ab - ab) else ibadj
    if ieadj = -1 ∧ ie ≤ ae then
      match prev with
      | some (pab, pae, po) =>
        if ie < ab then (ibadj1, po + (pae - pab))
        else if ie > ab then (ibadj1, o + (ie - ab))
        else adjLoop ib ie rest (some (ab, ae, o)) ibadj1 ieadj
      | none =>
        if ie > ab then (ibadj1, o + (ie - ab))
        else adjLoop ib ie rest (some (ab, ae, o)) ibadj1 ieadj
    else adjLoop ib ie rest (some (ab, ae, o)) ibadj1 ieadj

/-- Fixed-branch remap of one track interval list through the splice map:
drop intervals outside `[first ab, last ae]`, adjust the rest, emit only
those with adjusted length `> MIN_INT_LEN = 5`, and abort (the C
`exit(1)`) when the sanity check `0 ≤ ib_adj ≤ ie_adj ≤ rlen` fails. -/
def adjustIntervals (ps : List (Int × Int × Int)) (rlen : Int) :
    List (Int × Int) → Option (List (Int × Int))
  | [] => some []
  | (ib, ie) :: rest =>
    if ie < (ps.headD (0, 0, 0)).1 ∨ ib > (ps.getLastD (0, 0, 0)).2.1 then
      adjustIntervals ps rlen rest
    else
      let r := adjLoop ib ie ps none (-1) (-1)
      if r.2 - r.1 > 5 then
        if r.1 < 0 ∨ r.1 > rlen ∨ r.1 > r.2 ∨ r.2 > rlen then none
        else
          match adjustIntervals ps rlen rest with
          | some l => some ((r.1, r.2) :: l)
          | none => none
      else adjustIntervals ps rlen rest

/-- Trimmed-branch remap of one track interval list (lines 955–994):
shift by `trim_ab`, drop intervals ending before the trim, clip `beg` to
`0` and `end` to the trim length, and stop at the first interval starting
past the trim.  No minimum-length filter is applied here. -/
def trimmedAdjust (trim_ab trim_ae : Int) : List (Int × Int) → List (Int × Int)
  | [] => []
  | (b, e) :: rest =>
    let beg := b - trim_ab
    let en := e - trim_ab
    if en < 0 then trimmedAdjust trim_ab trim_ae rest
    else
      let beg1 := if beg < 0 then 0 else beg
      if beg1 > trim_ae - trim_ab then []
      else
        let en1 := if en > trim_ae - trim_ab then trim_ae - trim_ab else en
        (beg1, en1) :: trimmedAdjust trim_ab trim_ae rest

/-- The trim interval loaded for a read (`get_trim` on the trim track, or
the whole read when no trim track is configured). -/
def readTrim (db : DBModel) (aread : Int) : Int × Int :=
  match db.trimOf with
  | some f => f aread
  | none => (0, db.readLen aread)

/-- The post-flip trim interval of one `fix_process` call. -/
def pipelineTrim (db : DBModel) (cfg : FixConfig) (ovls : List Overlap) : Int × Int :=
  let aread := (ovls.headD default).aread
  let t0 := readTrim db aread
  postFlipTrim db cfg.twidth ovls t0.1 t0.2

/-- The candidate list after the merger and the WeakFinder scan — the
value of `data[0..dcur)` at the `dcur == 0` branch point of
`fix_process`. -/
def candidatesAfterWeak (db : DBModel) (cfg : FixConfig) (ovls : List Overlap) : List Gap :=
  let aread := (ovls.headD default).aread
  let qa := db.qtrack aread
  let t := pipelineTrim db cfg ovls
  let segf := skipZeroFwd qa qa.length (t.1 / cfg.twidth).toNat
  let segl := skipZeroBwd qa (t.2 / cfg.twidth).toNat
  weakLoop db cfg.twidth cfg.lowq ovls qa (segl - segf) segf segl
    (mergedGapCandidates db cfg ovls)

/-- Per-candidate spanning-read count added after the final sort
(`ovl[i].path.abpos + 100 < ab && ovl[i].path.aepos - 100 > ae`). -/
def spanUpdate (ovls : List Overlap) (l : List Gap) : List Gap :=
  l.map (fun g =>
    { g with span := g.span + ovls.foldl (fun acc o =>
        if o.path.abpos + 100 < g.ab ∧ o.path.aepos - 100 > g.ae then acc + 1 else acc) 0 })

/-- The candidate list handed to the patch loop: the post-weak candidates,
sorted again and annotated with spanning-read counts. -/
def survivingCandidates (db : DBModel) (cfg : FixConfig) (ovls : List Overlap) : List Gap :=
  spanUpdate ovls (sortGaps (candidatesAfterWeak db cfg ovls))

/-- Outcome of one `fix_process` call on a read's overlap group. -/
inductive FixOutput where
  | skipped
  | trackError
  | assertFail
  | trimmedOut (seq : List Int)
  | fixedOut (seq : List Int) (patches : List (Int × Int × Int)) (donors : List Gap)
deriving Repr, DecidableEq

/-- `true` exactly on the `>fixed_` output branch. -/
def FixOutput.isFixedOut : FixOutput → Bool
  | .fixedOut _ _ _ => true
  | _ => false

/-- `true` exactly on the `>trimmed_` output branch. -/
def FixOutput.isTrimmedOut : FixOutput → Bool
  | .trimmedOut _ => true
  | _ => false

/-- `fix_process` of LAfix.c: trim lookup and early skip, flip filter and
trim intersection, track sanity checks, GapFinder, merger, WeakFinder,
then either the trimmed branch (no candidates) or the patch loop and the
fixed branch, both subject to `minlen`. -/
def fix_process (db : DBModel) (cfg : FixConfig) (ovls : List Overlap) : FixOutput :=
  match ovls with
  | [] => .skipped
  | o0 :: _ =>
    let aread := o0.aread
    let w := cfg.twidth
    let alen := db.readLen aread
    let t0 := readTrim db aread
    if t0.1 ≥ t0.2 then .skipped
    else
      let t := postFlipTrim db w ovls t0.1 t0.2
      let nsegments := (alen + w - 1) / w
      let qa := db.qtrack aread
      if (qa.length : Int) ≠ nsegments then .trackError
      else if (db.dust aread).any (fun d =>
          decide (d.1 < 0) || decide (d.1 > alen) || decide (d.1 > d.2) || decide (d.2 > alen)) then
        .trackError
      else if t.1 < 0 ∨ t.1 > alen ∨ t.1 > t.2 ∨ t.2 > alen then .trackError
      else
        let cands := candidatesAfterWeak db cfg ovls
        if cands = [] then
          if t.2 - t.1 ≥ cfg.minlen then .trimmedOut (aSlice (db.readOf aread) t.1 t.2)
          else .skipped
        else
          match patcher (db.readOf aread) db.readOf db.cpl t.1 t.2
              (spanUpdate ovls (sortGaps cands)) with
          | none => .assertFail
          | some r =>
            if (r.1.length : Int) ≥ cfg.minlen then .fixedOut r.1 r.2.1 r.2.2
            else .skipped

/-- The configuration of the end-to-end scenarios of the spec
(`W = 100`, `lowQ = 28`, `maxgap = 500`, `minlen = 50`). -/
def cfgStd : FixConfig := ⟨100, 50, 28, 500⟩

/-- Database of scenario S3: reads 2 and 9 of length 500, constant good
quality, no dust, no trim track. -/
def S3db : DBModel :=
  { readLen := fun _ => 500
    readOf := fun _ _ => 0
    qtrack := fun r => if r = 2 ∨ r = 9 then [10, 10, 10, 10, 10] else []
    dust := fun _ => []
    trimOf := none
    cpl := fun x => 3 - x }

/-- Overlaps of scenario S3: two same-orientation overlaps of read 2 with
read 9 bracketing the A-gap `[200, 300)`. -/
def S3ovls : List Overlap :=
  [⟨2, 9, false, ⟨0, 200, 0, 200, [0, 100, 0, 100]⟩⟩,
   ⟨2, 9, false, ⟨300, 500, 300, 500, [0, 100, 0, 100]⟩⟩]

/-- The candidate scenario S3 makes the GapFinder produce. -/
def gS3 : Gap := ⟨100, 400, 100, 400, 13, 9, 1, 0, false⟩

/-- Database of scenario S4: read 3 of length 1000. -/
def S4db : DBModel :=
  { readLen := fun r => if r = 3 then 1000 else 50
    readOf := fun _ _ => 0
    qtrack := fun _ => []
    dust := fun _ => []
    trimOf := none
    cpl := fun x => 3 - x }

/-- Overlaps of scenario S4: the COMP self-overlap of read 3 with uniform
per-segment trace, followed by a foreign overlap so the self-overlap range
`[b, e)` of `filter_flips` is closed. -/
def S4ovls : List Overlap :=
  [⟨3, 3, true, ⟨200, 500, 500, 800, [0, 100, 0, 100, 0, 100]⟩⟩,
   ⟨3, 4, false, ⟨0, 50, 0, 50, [0, 50]⟩⟩]

/-- Database of the weak-patch-with-dust scenario: read 1 with a bad
middle segment, donor read 7 whose region `[120, 180)` is dust-masked. -/
def C6db : DBModel :=
  { readLen := fun _ => 400
    readOf := fun _ _ => 0
    qtrack := fun r => if r = 1 then [10, 40, 10, 12] else if r = 7 then [8, 9, 10, 11] else []
    dust := fun r => if r = 7 then [(120, 180)] else []
    trimOf := none
    cpl := fun x => 3 - x }

/-- Overlaps of the weak-patch-with-dust scenario: one overlap of read 7
fully covering read 1. -/
def C6ovls : List Overlap :=
  [⟨1, 7, false, ⟨0, 400, 0, 400, [0, 100, 0, 100, 0, 100, 0, 100]⟩⟩]

/-- The weak candidate that scenario produces: donor interval `[100, 200)`
of read 7, containing the dust interval `[120, 180)`. -/
def gC6 : Gap := ⟨100, 200, 100, 200, 9, 7, 0, 1, false⟩

/-- Database of the oversized-weak-patch scenario: donor read 7 of length
900 whose trace spends 700 B-bases on one A-segment. -/
def C7db : DBModel :=
  { readLen := fun r => if r = 7 then 900 else 400
    readOf := fun _ _ => 0
    qtrack := fun r =>
      if r = 1 then [10, 40, 10, 12]
      else if r = 7 then [8, 9, 10, 11, 9, 9, 9, 9, 9] else []
    dust := fun _ => []
    trimOf := none
    cpl := fun x => 3 - x }

/-- Overlap of the oversized-weak-patch scenario. -/
def C7ovls : List Overlap :=
  [⟨1, 7, false, ⟨0, 400, 0, 900, [0, 100, 0, 700, 0, 50, 0, 50]⟩⟩]

/-- The oversized weak candidate: its donor interval `[100, 800)` exceeds
`maxgap = 500` by every measure the merger would have applied. -/
def gC7 : Gap := ⟨100, 200, 100, 800, 9, 7, 0, 1, false⟩

/-- The candidate's `(ae - ab, |be - bb|, |(be-bb) - (ae-ab)|) < maxgap`
test the duplicate-merge phase applies (in the claim's strengthened
length-difference form). -/
def maxgapExceeded (maxgap : Int) (g : Gap) : Bool :=
  decide (g.ae - g.ab ≥ maxgap) || decide (|(g.be - g.bb) - (g.ae - g.ab)| ≥ maxgap)

/-- Whether candidate `g`'s forward-strand B-interval entirely contains
some dust interval of its donor read (the GapFinder's dust veto test). -/
def hasDustContained (db : DBModel) (g : Gap) : Bool :=
  (db.dust g.b).any (fun d => decide (g.bb ≤ d.1) && decide (g.be ≥ d.2))

/-- Database of the five-fold-supported gap scenario: read 1 with a bad
middle segment, donor reads 10–14 of length 500. -/
def C7wdb : DBModel :=
  { readLen := fun _ => 500
    readOf := fun _ _ => 0
    qtrack := fun r => if r = 1 then [10, 40, 10, 10, 10] else [10, 10, 10, 10, 10]
    dust := fun _ => []
    trimOf := none
    cpl := fun x => 3 - x }

/-- One gap-bracketing overlap pair of donor read `b` for the five-fold
scenario. -/
def mkPairOvl (b : Int) : List Overlap :=
  [⟨1, b, false, ⟨0, 200, 0, 200, [0, 100, 0, 100]⟩⟩,
   ⟨1, b, false, ⟨300, 500, 300, 500, [0, 100, 0, 100]⟩⟩]

/-- Overlaps of the five-fold-supported gap scenario. -/
def C7wovls : List Overlap :=
  mkPairOvl 10 ++ mkPairOvl 11 ++ mkPairOvl 12 ++ mkPairOvl 13 ++ mkPairOvl 14

/-- `u` is a sub-interval of `t` that is nonempty whenever `t` is: the
shape every `filter_flips` trim update preserves. -/
def TrimNarrow (t u : Int × Int) : Prop :=
  t.1 ≤ u.1 ∧ u.2 ≤ t.2 ∧ (t.1 < t.2 → u.1 < u.2)

/-- Byte `p` of `out` is a verbatim A-read byte placed by one of the
splice-map triples `(ab, ae, o)`. -/
def fromAPatch (A : Int → Int) (patches : List (Int × Int × Int)) (out : List Int) (p : Nat) : Prop :=
  ∃ t, t ∈ patches ∧ t.2.2 ≤ (p : Int) ∧ (p : Int) < t.2.2 + (t.2.1 - t.1) ∧
    out.getD p 0 = A (t.1 + ((p : Int) - t.2.2))

/-- Byte `p` of `out` is a donor byte: a byte of B-read `g.b` taken inside
`[g.bb, g.be)`, complemented when `g.comp` is set. -/
def fromBDonor (B : Int → Int → Int) (cpl : Int → Int) (donors : List Gap) (out : List Int) (p : Nat) : Prop :=
  ∃ g q, g ∈ donors ∧ g.bb ≤ q ∧ q < g.be ∧
    out.getD p 0 = (if g.comp then cpl (B g.b q) else B g.b q)

/-- Every byte of `out` comes from the A-read through a splice triple or
from a donor B-interval. -/
def Conserved (A : Int → Int) (B : Int → Int → Int) (cpl : Int → Int)
    (out : List Int) (patches : List (Int × Int × Int)) (donors : List Gap) : Prop :=
  ∀ p : Nat, p < out.length → fromAPatch A patches out p ∨ fromBDonor B cpl donors out p

/-- Total length of the retained A-intervals of a splice map. -/
def sumIvs (patches : List (Int × Int × Int)) : Int :=
  (patches.map (fun t => t.2.1 - t.1)).sum

/-- Total length of the donor B-intervals of a spliced candidate list. -/
def sumDonors (donors : List Gap) : Int :=
  (donors.map (fun g => g.be - g.bb)).sum

/-- Splice maps as the patch loop produces them: blocks `(ab, ae, o)` with
`ab < ae`, starting at or after the running lower bound, in increasing
disjoint order. -/
def chainB : Int → List (Int × Int × Int) → Bool
  | _, [] => true
  | lb, (ab, ae, _) :: rest => decide (lb ≤ ab) && decide (ab < ae) && chainB ae rest

/-- Two candidates with the same A- and B-intervals (the fields the merger
phases never alter on surviving candidates). -/
def sameIv (g h : Gap) : Prop :=
  g.ab = h.ab ∧ g.ae = h.ae ∧ g.bb = h.bb ∧ g.be = h.be

/-- Claim C5 of the five-fold scenario needs a named survivor. -/
def gC7w : Gap := ⟨100, 400, 100, 400, 13, 10, 5, 0, false⟩

theorem trimNarrow_rfl (t : Int × Int) : TrimNarrow t t :=
  ⟨le_refl _, le_refl _, fun h => h⟩

theorem trimNarrow_trans {t u v : Int × Int} (h1 : TrimNarrow t u) (h2 : TrimNarrow u v) :
    TrimNarrow t v :=
  ⟨le_trans h1.1 h2.1, le_trans h2.2.1 h1.2.1,
   fun h => h2.2.2 (h1.2.2 h)⟩

theorem updateTrimSeg_narrow {sab sae : Int} (hs : sab < sae) (t : Int × Int) :
    TrimNarrow t (updateTrimSeg sab sae t) := by
  unfold updateTrimSeg
  split
  · next hg =>
    split
    · exact ⟨by omega, le_refl _, fun _ => by simp; omega⟩
    · exact ⟨le_refl _, by omega, fun _ => by simp; omega⟩
  · exact trimNarrow_rfl t

theorem updateTrimMid_narrow (mid : Int) (t : Int × Int) :
    TrimNarrow t (updateTrimMid mid t) := by
  unfold updateTrimMid
  split
  · next hg =>
    split
    · exact ⟨by omega, le_refl _, fun _ => by simp; omega⟩
    · exact ⟨le_refl _, by omega, fun _ => by simp; omega⟩
  · exact trimNarrow_rfl t

theorem segLoop_narrow (w alen : Int) (trace : List Int) (tlen : Int) (hw : 0 < w) :
    ∀ fuel j sab sae sbb sbe (st : Bool × Int × Int), sab < sae →
      TrimNarrow st.2 (segLoop w alen trace tlen fuel j sab sae sbb sbe st).2 := by
  intro fuel
  induction fuel with
  | zero => intro j sab sae sbb sbe st hs; exact trimNarrow_rfl _
  | succ n ih =>
    intro j sab sae sbb sbe st hs
    unfold segLoop
    split
    · dsimp only
      refine trimNarrow_trans ?_
        (ih (j + 2) sae (sae + w) sbe (sbe + trace.getD (j + 1).toNat 0) _ (by omega))
      split
      · simpa using updateTrimSeg_narrow hs st.2
      · exact trimNarrow_rfl _
    · exact trimNarrow_rfl _

theorem flipWalk_narrow (w alen : Int) (o : Overlap) (st : Bool × Int × Int) (hw : 0 < w) :
    TrimNarrow st.2 (flipWalk w alen o st).2 := by
  unfold flipWalk
  split
  · split
    · exact segLoop_narrow w alen _ _ hw _ _ _ _ _ _ st
        (Int.lt_ediv_add_one_mul_self o.path.abpos hw)
    · exact trimNarrow_rfl _
  · exact trimNarrow_rfl _

theorem ovlLoop_narrow (w alen : Int) (ovls : List Overlap) (hw : 0 < w) :
    ∀ fuel i e (st : Bool × Int × Int),
      TrimNarrow st.2 (ovlLoop w alen ovls fuel i e st).2 := by
  intro fuel
  induction fuel with
  | zero => intro i e st; exact trimNarrow_rfl _
  | succ n ih =>
    intro i e st
    unfold ovlLoop
    split
    · exact trimNarrow_trans (flipWalk_narrow w alen _ st hw) (ih _ _ _)
    · exact trimNarrow_rfl _

theorem pairLoop_narrow (alen : Int) (ovls : List Overlap) :
    ∀ fuel i e (st : Bool × Int × Int),
      TrimNarrow st.2 (pairLoop alen ovls fuel i e st).2 := by
  intro fuel
  induction fuel with
  | zero => intro i e st; exact trimNarrow_rfl _
  | succ n ih =>
    intro i e st
    unfold pairLoop
    split
    · dsimp only
      refine trimNarrow_trans ?_ (ih (i + 1) e _)
      split
      · split
        · simpa using updateTrimMid_narrow
            ((((ovls.getD i.toNat default).path.aepos) +
              ((ovls.getD (i + 1).toNat default).path.abpos)) / 2) st.2
        · exact trimNarrow_rfl _
      · exact trimNarrow_rfl _
    · exact trimNarrow_rfl _

theorem filter_flips_narrow (db : DBModel) (w : Int) (ovls : List Overlap)
    (tb te : Int) (hw : 0 < w) :
    TrimNarrow (tb, te) (filter_flips db w ovls tb te).2 := by
  unfold filter_flips
  match ovls with
  | [] => exact trimNarrow_rfl _
  | o0 :: rest =>
    dsimp only
    split
    · exact trimNarrow_rfl _
    · exact trimNarrow_trans
        (ovlLoop_narrow w _ _ hw _ _ _ ((false, tb, te) : Bool × Int × Int))
        (pairLoop_narrow _ _ _ _ _ _)

/-- Claim C5: the trim interval after running the flip detector and
intersecting with the original trim satisfies `trim_ab' ≥ trim_ab` and
`trim_ae' ≤ trim_ae`; the flip adjustment can only narrow the trim
interval, never widen it. -/
theorem C5_flip_trim_monotone (db : DBModel) (w : Int) (ovls : List Overlap)
    (trim_ab trim_ae : Int) :
    (postFlipTrim db w ovls trim_ab trim_ae).1 ≥ trim_ab ∧
    (postFlipTrim db w ovls trim_ab trim_ae).2 ≤ trim_ae :=
  ⟨le_max_right _ _, min_le_right _ _⟩

/-- Claim C10: starting from a nonempty trim interval, every trim update
inside `filter_flips` preserves nonemptiness, so the trim after flip
adjustment is still nonempty and the patching phase is reached. -/
theorem C10_flip_trim_nonempty (db : DBModel) (w : Int) (ovls : List Overlap)
    (trim_ab trim_ae : Int) (hw : 0 < w) (h : trim_ab < trim_ae) :
    (postFlipTrim db w ovls trim_ab trim_ae).1 <
      (postFlipTrim db w ovls trim_ab trim_ae).2 := by
  obtain ⟨h1, h2, h3⟩ := filter_flips_narrow db w ovls trim_ab trim_ae hw
  have h4 := h3 h
  unfold postFlipTrim
  dsimp only
  simp only [max_lt_iff, lt_min_iff]
  refine ⟨⟨?_, ?_⟩, ?_, ?_⟩ <;> omega

/-- Witness for C10 at the S4 input. -/
theorem C10_witness :
    (postFlipTrim S4db 100 S4ovls 0 1000).1 < (postFlipTrim S4db 100 S4ovls 0 1000).2 :=
  C10_flip_trim_nonempty S4db 100 S4ovls 0 1000 (by decide) (by decide)

/-- Claim C2 (counterexample): on the S3 input the lone gap candidate does
not survive the merger (the `support < 5` filter drops it) and the read is
not emitted on the `fixed_` branch. -/
theorem C2_counterexample :
    mergedGapCandidates S3db cfgStd S3ovls = [] ∧
    (fix_process S3db cfgStd S3ovls).isFixedOut = false :=
  ⟨by decide, by decide⟩

/-- Claim C2 (amended): on the S3 input the GapFinder produces exactly the
candidate `ab = 100, ae = 400` (with `bb = 100, be = 400, support = 1`),
but the merger's support filter drops it, and the read is emitted on the
`trimmed_` branch with the untouched trim slice `[0, 500)`. -/
theorem C2_amended_gap_dropped :
    gapCandidates S3db 100 S3ovls = [gS3] ∧
    mergedGapCandidates S3db cfgStd S3ovls = [] ∧
    fix_process S3db cfgStd S3ovls =
      FixOutput.trimmedOut (aSlice (S3db.readOf 2) 0 500) :=
  ⟨by decide, by decide, by decide⟩

/-- Claim C3 (counterexample): on the S4 input the flip detector does not
set `trim_ab = 350`. -/
theorem C3_counterexample : (postFlipTrim S4db 100 S4ovls 0 1000).1 ≠ 350 := by decide

/-- Claim C3 (amended): on the S4 input the alignment-level diagonal
crossing is detected (the forward-strand flipped B-range `[200, 500)`
meets the A-range), but the per-segment walk — which skips the final two
trace segments and trims at segment endpoints, not midpoints — flags no
segment, so the trim is unchanged at `(0, 1000)`. -/
theorem C3_amended_no_trim :
    intersect 200 500 (1000 - 800) (1000 - 500) = true ∧
    filter_flips S4db 100 S4ovls 0 1000 = (false, 0, 1000) ∧
    postFlipTrim S4db 100 S4ovls 0 1000 = (0, 1000) :=
  ⟨by decide, by decide, by decide⟩

theorem chainB_mem {lb : Int} {ps : List (Int × Int × Int)} {t : Int × Int × Int}
    (hc : chainB lb ps = true) (hm : t ∈ ps) : lb ≤ t.1 ∧ t.1 < t.2.1 := by
  induction ps generalizing lb with
  | nil => cases hm
  | cons hd rest ih =>
    obtain ⟨ab, ae, o⟩ := hd
    simp only [chainB, Bool.and_eq_true, decide_eq_true_eq] at hc
    rcases List.mem_cons.mp hm with h | h
    · subst h; exact ⟨hc.1.1, hc.1.2⟩
    · have := ih hc.2 h
      exact ⟨le_trans (le_of_lt (lt_of_le_of_lt hc.1.1 hc.1.2)) this.1, this.2⟩

theorem adjLoop_inside {ib ie ab ae o : Int} :
    ∀ (ps : List (Int × Int × Int)) (prev : Option (Int × Int × Int)) (lb : Int),
      chainB lb ps = true → (ab, ae, o) ∈ ps → ab ≤ ib → ib < ie → ie ≤ ae →
      adjLoop ib ie ps prev (-1) (-1) = (o + (ib - ab), o + (ie - ab)) := by
  intro ps
  induction ps with
  | nil => intro prev lb _ hm; cases hm
  | cons hd rest ih =>
    intro prev lb hc hm h1 h2 h3
    obtain ⟨hab, hae, ho⟩ := hd
    simp only [chainB, Bool.and_eq_true, decide_eq_true_eq] at hc
    rcases List.mem_cons.mp hm with h | h
    · injection h with e1 e23
      injection e23 with e2 e3
      subst e1; subst e2; subst e3
      cases prev with
      | none =>
        simp [adjLoop, max_eq_left h1, h3, show ib < ae by omega, show ie > ab by omega]
      | some p =>
        obtain ⟨pab, pae, po⟩ := p
        simp [adjLoop, max_eq_left h1, h3, show ib < ae by omega,
          show ie > ab by omega, show ¬ ie < ab by omega]
    · have hbnd := chainB_mem hc.2 h
      dsimp only at hbnd
      simp only [adjLoop, show ¬ ib < hae by omega, show ¬ ie ≤ hae by omega,
        and_false, if_false]
      exact ih (some (hab, hae, ho)) hae hc.2 h h1 h2 h3

/-- Claim C9: an external track interval `[ib, ie)` lying entirely inside
a single retained splice-map block `(ab, ae, o)` is remapped with its
length preserved: `ie_adj - ib_adj = ie - ib`. -/
theorem C9_remap_roundtrip (ps : List (Int × Int × Int)) (lb ib ie ab ae o : Int)
    (hc : chainB lb ps = true) (hm : (ab, ae, o) ∈ ps)
    (h1 : ab ≤ ib) (h2 : ib < ie) (h3 : ie ≤ ae) :
    adjLoop ib ie ps none (-1) (-1) = (o + (ib - ab), o + (ie - ab)) ∧
    (adjLoop ib ie ps none (-1) (-1)).2 - (adjLoop ib ie ps none (-1) (-1)).1 = ie - ib := by
  have h := adjLoop_inside ps none lb hc hm h1 h2 h3
  refine ⟨h, ?_⟩
  rw [h]
  dsimp only
  omega

/-- Witness for C9: the interval `[210, 250)` inside the second block of
the splice map `[(0,100,0), (200,300,100)]` keeps its length 40. -/
theorem C9_witness :
    adjLoop 210 250 [(0, 100, 0), (200, 300, 100)] none (-1) (-1) = (110, 150) ∧
    (adjLoop 210 250 [(0, 100, 0), (200, 300, 100)] none (-1) (-1)).2 -
      (adjLoop 210 250 [(0, 100, 0), (200, 300, 100)] none (-1) (-1)).1 = 250 - 210 :=
  C9_remap_roundtrip [(0, 100, 0), (200, 300, 100)] 0 210 250 200 300 100
    (by decide) (by decide) (by decide) (by decide) (by decide)

theorem adjustIntervals_sound (ps : List (Int × Int × Int)) (rlen : Int) :
    ∀ (ivs l : List (Int × Int)), adjustIntervals ps rlen ivs = some l →
      ∀ p ∈ l, p.2 - p.1 > 5 ∧ 0 ≤ p.1 ∧ p.1 ≤ p.2 ∧ p.2 ≤ rlen := by
  intro ivs
  induction ivs with
  | nil =>
    intro l h p hp
    simp only [adjustIntervals] at h
    cases h
    cases hp
  | cons iv rest ih =>
    intro l h p hp
    obtain ⟨ib, ie⟩ := iv
    simp only [adjustIntervals] at h
    split at h
    · exact ih l h p hp
    · split at h
      · next hlen =>
        split at h
        · cases h
        · next hsane =>
          split at h
          · next l' heq =>
            cases h
            rcases List.mem_cons.mp hp with hh | hh
            · subst hh
              dsimp only
              omega
            · exact ih l' heq p hh
          · cases h
      · exact ih l h p hp

theorem trimmedAdjust_bounds (trim_ab trim_ae : Int) :
    ∀ (ivs : List (Int × Int)), (∀ iv ∈ ivs, iv.1 ≤ iv.2) →
      ∀ p ∈ trimmedAdjust trim_ab trim_ae ivs,
        0 ≤ p.1 ∧ p.1 ≤ p.2 ∧ p.2 ≤ trim_ae - trim_ab := by
  intro ivs
  induction ivs with
  | nil => intro _ p hp; cases hp
  | cons iv rest ih =>
    intro hwf p hp
    obtain ⟨b, e⟩ := iv
    have hbe : b ≤ e := hwf (b, e) (List.mem_cons_self _ _)
    have hrest : ∀ x ∈ rest, x.1 ≤ x.2 := fun x hx => hwf x (List.mem_cons_of_mem _ hx)
    simp only [trimmedAdjust] at hp
    by_cases h1 : e - trim_ab < 0
    · rw [if_pos h1] at hp
      exact ih hrest p hp
    · rw [if_neg h1] at hp
      by_cases h2 : (if b - trim_ab < 0 then 0 else b - trim_ab) > trim_ae - trim_ab
      · rw [if_pos h2] at hp
        cases hp
      · rw [if_neg h2] at hp
        rcases List.mem_cons.mp hp with hh | hh
        · subst hh
          dsimp only
          split_ifs at h2 ⊢ <;> omega
        · exact ih hrest p hh

/-- Claim C8 (amended): on the `fixed_` branch every emitted remapped
interval has adjusted length `> 5` and satisfies
`0 ≤ ib_adj ≤ ie_adj ≤ rlen`; on the `trimmed_` branch emitted intervals
are clipped into `[0, trim length]` but no minimum-length filter is
applied. -/
theorem C8_amended_remap_bounds (ps : List (Int × Int × Int))
    (rlen trim_ab trim_ae : Int) (ivs ivs2 : List (Int × Int)) :
    (∀ l, adjustIntervals ps rlen ivs = some l →
      ∀ p ∈ l, p.2 - p.1 > 5 ∧ 0 ≤ p.1 ∧ p.1 ≤ p.2 ∧ p.2 ≤ rlen) ∧
    ((∀ iv ∈ ivs2, iv.1 ≤ iv.2) →
      ∀ p ∈ trimmedAdjust trim_ab trim_ae ivs2,
        0 ≤ p.1 ∧ p.1 ≤ p.2 ∧ p.2 ≤ trim_ae - trim_ab) :=
  ⟨fun l h => adjustIntervals_sound ps rlen ivs l h,
   fun hwf => trimmedAdjust_bounds trim_ab trim_ae ivs2 hwf⟩

/-- Witness for C8 at a concrete splice map and track. -/
theorem C8_witness :
    ((10 : Int) - 2 > 5 ∧ (0 : Int) ≤ 2 ∧ (2 : Int) ≤ 10 ∧ (10 : Int) ≤ 100) ∧
    ((0 : Int) ≤ 10 ∧ (10 : Int) ≤ 12 ∧ (12 : Int) ≤ 500 - 0) :=
  ⟨(C8_amended_remap_bounds [(0, 100, 0)] 100 0 500 [(2, 10)] [(10, 12)]).1
      [(2, 10)] (by decide) (2, 10) (by decide),
   (C8_amended_remap_bounds [(0, 100, 0)] 100 0 500 [(2, 10)] [(10, 12)]).2
      (by decide) (10, 12) (by decide)⟩

/-- Claim C8 (counterexample): the `trimmed_` branch emits the remapped
interval `[10, 12)` of length 2, which violates the claimed
`ie_adj - ib_adj > 5`. -/
theorem C8_counterexample :
    trimmedAdjust 0 500 [(10, 12)] = [(10, 12)] ∧ ¬ ((12 : Int) - 10 > 5) := by decide

theorem ite_then_eq_some {α : Type} {c : Prop} [Decidable c] {x : Option α} {g : α}
    (h : (if c then x else none) = some g) : c ∧ x = some g := by
  by_cases hc : c
  · rw [if_pos hc] at h; exact ⟨hc, h⟩
  · rw [if_neg hc] at h; cases h

theorem ite_else_eq_some {α : Type} {c : Prop} [Decidable c] {x : Option α} {g : α}
    (h : (if c then none else x) = some g) : ¬ c ∧ x = some g := by
  by_cases hc : c
  · rw [if_pos hc] at h; cases h
  · rw [if_neg hc] at h; exact ⟨hc, h⟩

theorem mkGapCand_dust {db : DBModel} {w : Int} {prev o : Overlap} {g : Gap}
    (h : mkGapCand db w prev o = some g) : hasDustContained db g = false := by
  simp only [mkGapCand] at h
  obtain ⟨hc1, h⟩ := ite_then_eq_some h
  obtain ⟨hc2, h⟩ := ite_else_eq_some h
  obtain ⟨hc3, h⟩ := ite_else_eq_some h
  obtain ⟨hc4, h⟩ := ite_else_eq_some h
  cases h
  simp only [Bool.not_eq_true] at hc3
  simpa [hasDustContained] using hc3

theorem gapScan_dust {db : DBModel} {w : Int} :
    ∀ (l : List Overlap) (prev : Overlap) (g : Gap), g ∈ gapScan db w prev l →
      hasDustContained db g = false := by
  intro l
  induction l with
  | nil => intro prev g hg; cases hg
  | cons o rest ih =>
    intro prev g hg
    unfold gapScan at hg
    split at hg
    · next gg heq =>
      rcases List.mem_cons.mp hg with hh | hh
      · subst hh; exact mkGapCand_dust heq
      · exact ih o g hh
    · exact ih o g hg

/-- Claim C6 (amended): every GapFinder candidate passes the dust veto —
its forward-strand B-interval never entirely contains a dust interval of
its donor read.  (WeakFinder candidates are not dust-checked; see the
counterexample.) -/
theorem C6_amended_gap_dust_veto (db : DBModel) (w : Int) (ovls : List Overlap) (g : Gap)
    (h : g ∈ gapCandidates db w ovls) : hasDustContained db g = false := by
  match ovls with
  | [] => cases h
  | o :: rest => exact gapScan_dust rest o g h

/-- Witness for the amended C6 at the S3 gap candidate. -/
theorem C6_witness : hasDustContained S3db gS3 = false :=
  C6_amended_gap_dust_veto S3db 100 S3ovls gS3 (by decide)

/-- Claim C6 (counterexample): a WeakFinder candidate whose B-interval
`[100, 200)` entirely contains the dust interval `[120, 180)` of its donor
read survives to the patching phase and the read is emitted on the
`fixed_` branch. -/
theorem C6_counterexample :
    survivingCandidates C6db cfgStd C6ovls = [gC6] ∧
    hasDustContained C6db gC6 = true ∧
    (fix_process C6db cfgStd C6ovls).isFixedOut = true :=
  ⟨by decide, by decide, by decide⟩

/-- Claim C7 (counterexample): a WeakFinder candidate appended after the
merger bypasses the `maxgap` cap: its B-interval `[100, 800)` gives
`|(be - bb) - (ae - ab)| = 600 ≥ maxgap = 500`, yet it survives to
patching and the read is emitted on the `fixed_` branch. -/
theorem C7_counterexample :
    survivingCandidates C7db cfgStd C7ovls = [gC7] ∧
    maxgapExceeded cfgStd.maxgap gC7 = true ∧
    (fix_process C7db cfgStd C7ovls).isFixedOut = true :=
  ⟨by decide, by decide, by decide⟩

theorem aSlice_length (A : Int → Int) (ab ae : Int) :
    (aSlice A ab ae).length = (ae - ab).toNat := by
  rw [aSlice, List.length_map, List.length_range]

theorem bSlice_length (B : Int → Int → Int) (cpl : Int → Int) (g : Gap) :
    (bSlice B cpl g).length = (g.be - g.bb).toNat := by
  rw [bSlice, List.length_map, List.length_range]

theorem aSlice_getD (A : Int → Int) (ab ae : Int) (k : Nat) (h : k < (ae - ab).toNat) :
    (aSlice A ab ae).getD k 0 = A (ab + (k : Int)) := by
  rw [aSlice, List.getD_eq_getElem?_getD, List.getElem?_map, List.getElem?_range h]
  rfl

theorem bSlice_getD (B : Int → Int → Int) (cpl : Int → Int) (g : Gap) (k : Nat)
    (h : k < (g.be - g.bb).toNat) :
    (bSlice B cpl g).getD k 0 =
      (if g.comp then cpl (B g.b (g.be - 1 - (k : Int))) else B g.b (g.bb + (k : Int))) := by
  rw [bSlice, List.getD_eq_getElem?_getD, List.getElem?_map, List.getElem?_range h]
  rfl

theorem conserved_append_aSlice {A : Int → Int} {B : Int → Int → Int} {cpl : Int → Int}
    {out : List Int} {patches : List (Int × Int × Int)} {donors : List Gap} (ab ae : Int)
    (h : Conserved A B cpl out patches donors) :
    Conserved A B cpl (out ++ aSlice A ab ae)
      (patches ++ [(ab, ae, (out.length : Int))]) donors := by
  intro p hp
  rw [List.length_append] at hp
  by_cases hc : p < out.length
  · rcases h p hc with hA | hB
    · obtain ⟨t, ht, h1, h2, h3⟩ := hA
      exact Or.inl ⟨t, List.mem_append_left _ ht, h1, h2, by
        rw [List.getD_append _ _ _ _ hc]; exact h3⟩
    · obtain ⟨g, q, hg, h1, h2, h3⟩ := hB
      exact Or.inr ⟨g, q, hg, h1, h2, by
        rw [List.getD_append _ _ _ _ hc]; exact h3⟩
  · push_neg at hc
    have hsl := aSlice_length A ab ae
    have hk : p - out.length < (ae - ab).toNat := by omega
    refine Or.inl ⟨(ab, ae, (out.length : Int)),
      List.mem_append_right _ (by simp), ?_, ?_, ?_⟩
    · dsimp only; omega
    · dsimp only; omega
    · rw [List.getD_append_right _ _ _ _ hc, aSlice_getD A ab ae _ hk]
      dsimp only
      congr 1
      omega

theorem conserved_append_bSlice {A : Int → Int} {B : Int → Int → Int} {cpl : Int → Int}
    {out : List Int} {patches : List (Int × Int × Int)} {donors : List Gap} (g : Gap)
    (h : Conserved A B cpl out patches donors) :
    Conserved A B cpl (out ++ bSlice B cpl g) patches (donors ++ [g]) := by
  intro p hp
  rw [List.length_append] at hp
  by_cases hc : p < out.length
  · rcases h p hc with hA | hB
    · obtain ⟨t, ht, h1, h2, h3⟩ := hA
      exact Or.inl ⟨t, ht, h1, h2, by rw [List.getD_append _ _ _ _ hc]; exact h3⟩
    · obtain ⟨g0, q, hg, h1, h2, h3⟩ := hB
      exact Or.inr ⟨g0, q, List.mem_append_left _ hg, h1, h2, by
        rw [List.getD_append _ _ _ _ hc]; exact h3⟩
  · push_neg at hc
    have hsl := bSlice_length B cpl g
    have hk : p - out.length < (g.be - g.bb).toNat := by omega
    refine Or.inr ?_
    by_cases hcomp : g.comp = true
    · refine ⟨g, g.be - 1 - ((p - out.length : Nat) : Int),
        List.mem_append_right _ (by simp), by omega, by omega, ?_⟩
      rw [List.getD_append_right _ _ _ _ hc, bSlice_getD B cpl g _ hk]
      simp [hcomp]
    · refine ⟨g, g.bb + ((p - out.length : Nat) : Int),
        List.mem_append_right _ (by simp), by omega, by omega, ?_⟩
      rw [List.getD_append_right _ _ _ _ hc, bSlice_getD B cpl g _ hk]
      simp [hcomp]

theorem patchTail_conserved {A : Int → Int} {B : Int → Int → Int} {cpl : Int → Int}
    {out : List Int} {patches : List (Int × Int × Int)} {donors : List Gap}
    (te ab : Int) (hc : Conserved A B cpl out patches donors) :
    Conserved A B cpl (patchTail A te ab out patches donors).1
      (patchTail A te ab out patches donors).2.1
      (patchTail A te ab out patches donors).2.2 := by
  unfold patchTail
  split
  · exact conserved_append_aSlice ab te hc
  · exact hc

theorem patchLoop_conserved (A : Int → Int) (B : Int → Int → Int) (cpl : Int → Int)
    (tb te : Int) :
    ∀ (cands : List Gap) (ab : Int) (out : List Int)
      (patches : List (Int × Int × Int)) (donors : List Gap)
      (res : List Int × List (Int × Int × Int) × List Gap),
      patchLoop A B cpl tb te cands ab out patches donors = some res →
      Conserved A B cpl out patches donors →
      Conserved A B cpl res.1 res.2.1 res.2.2 := by
  intro cands
  induction cands with
  | nil =>
    intro ab out patches donors res h hc
    simp only [patchLoop] at h
    cases h
    exact patchTail_conserved te ab hc
  | cons g rest ih =>
    intro ab out patches donors res h hc
    simp only [patchLoop] at h
    by_cases h1 : tb > g.ab
    · rw [if_pos h1] at h
      exact ih g.ae out patches donors res h hc
    · rw [if_neg h1] at h
      by_cases h2 : te < g.ae
      · rw [if_pos h2] at h
        cases h
        exact patchTail_conserved te ab hc
      · rw [if_neg h2] at h
        by_cases h3 : (if tb < g.ab ∧ tb > ab then tb else ab) ≤ g.ab
        · rw [if_pos h3] at h
          by_cases h4 : (if tb < g.ab ∧ tb > ab then tb else ab) < g.ab
          · simp only [if_pos h4] at h
            exact ih g.ae _ _ _ res h
              (conserved_append_bSlice g (conserved_append_aSlice _ g.ab hc))
          · simp only [if_neg h4] at h
            exact ih g.ae _ _ _ res h (conserved_append_bSlice g hc)
        · rw [if_neg h3] at h
          cases h

/-- Claim C1: base conservation — every byte of the patched output is
either a byte of the A-read at the position given by the enclosing
splice-map triple, or a byte (complemented and position-reversed when the
candidate's comp flag is set) of the donor B-read inside the candidate's
B-interval `[bb, be)`. -/
theorem C1_base_conservation (A : Int → Int) (B : Int → Int → Int) (cpl : Int → Int)
    (tb te : Int) (cands : List Gap)
    (res : List Int × List (Int × Int × Int) × List Gap)
    (h : patcher A B cpl tb te cands = some res) :
    ∀ p : Nat, p < res.1.length →
      fromAPatch A res.2.1 res.1 p ∨ fromBDonor B cpl res.2.2 res.1 p :=
  patchLoop_conserved A B cpl tb te cands tb [] [] [] res h
    (fun p hp => absurd hp (by simp))

/-- Witness for C1: byte 1 of a concrete patched output is a donor byte. -/
theorem C1_witness :
    fromAPatch (fun p => p) [(0, 1, 0), (2, 3, 2)] [0, 5, 2] 1 ∨
    fromBDonor (fun _ q => q) (fun x => 3 - x) [⟨1, 2, 5, 6, 17, 0, 0, 0, false⟩] [0, 5, 2] 1 :=
  C1_base_conservation (fun p => p) (fun _ q => q) (fun x => 3 - x) 0 3
    [⟨1, 2, 5, 6, 17, 0, 0, 0, false⟩]
    ([0, 5, 2], [(0, 1, 0), (2, 3, 2)], [⟨1, 2, 5, 6, 17, 0, 0, 0, false⟩])
    (by decide) 1 (by decide)

theorem sumIvs_append (patches : List (Int × Int × Int)) (t : Int × Int × Int) :
    sumIvs (patches ++ [t]) = sumIvs patches + (t.2.1 - t.1) := by
  simp [sumIvs]

theorem sumDonors_append (donors : List Gap) (g : Gap) :
    sumDonors (donors ++ [g]) = sumDonors donors + (g.be - g.bb) := by
  simp [sumDonors]

theorem patchTail_length (A : Int → Int) (te ab : Int) (out : List Int)
    (patches : List (Int × Int × Int)) (donors : List Gap)
    (hinv : (out.length : Int) = sumIvs patches + sumDonors donors) :
    ((patchTail A te ab out patches donors).1.length : Int) =
      sumIvs (patchTail A te ab out patches donors).2.1 +
      sumDonors (patchTail A te ab out patches donors).2.2 := by
  unfold patchTail
  split
  · next hlt =>
    dsimp only
    rw [List.length_append, aSlice_length, sumIvs_append]
    dsimp only
    push_cast
    omega
  · exact hinv

theorem patchLoop_length (A : Int → Int) (B : Int → Int → Int) (cpl : Int → Int)
    (tb te : Int) :
    ∀ (cands : List Gap) (ab : Int) (out : List Int)
      (patches : List (Int × Int × Int)) (donors : List Gap)
      (res : List Int × List (Int × Int × Int) × List Gap),
      (∀ g ∈ cands, g.bb ≤ g.be) →
      patchLoop A B cpl tb te cands ab out patches donors = some res →
      (out.length : Int) = sumIvs patches + sumDonors donors →
      (res.1.length : Int) = sumIvs res.2.1 + sumDonors res.2.2 := by
  intro cands
  induction cands with
  | nil =>
    intro ab out patches donors res _ h hinv
    simp only [patchLoop] at h
    cases h
    exact patchTail_length A te ab out patches donors hinv
  | cons g rest ih =>
    intro ab out patches donors res hwf h hinv
    have hg : g.bb ≤ g.be := hwf g (List.mem_cons_self _ _)
    have hrest : ∀ x ∈ rest, x.bb ≤ x.be := fun x hx => hwf x (List.mem_cons_of_mem _ hx)
    simp only [patchLoop] at h
    by_cases h1 : tb > g.ab
    · rw [if_pos h1] at h
      exact ih g.ae out patches donors res hrest h hinv
    · rw [if_neg h1] at h
      by_cases h2 : te < g.ae
      · rw [if_pos h2] at h
        cases h
        exact patchTail_length A te ab out patches donors hinv
      · rw [if_neg h2] at h
        by_cases h3 : (if tb < g.ab ∧ tb > ab then tb else ab) ≤ g.ab
        · rw [if_pos h3] at h
          by_cases h4 : (if tb < g.ab ∧ tb > ab then tb else ab) < g.ab
          · simp only [if_pos h4] at h
            refine ih g.ae _ _ _ res hrest h ?_
            rw [List.length_append, List.length_append, aSlice_length, bSlice_length,
              sumIvs_append, sumDonors_append]
            dsimp only
            push_cast
            omega
          · simp only [if_neg h4] at h
            refine ih g.ae _ _ _ res hrest h ?_
            rw [List.length_append, bSlice_length, sumDonors_append]
            push_cast
            omega
        · rw [if_neg h3] at h
          cases h

/-- Claim C4: length consistency — the length of the patched output equals
the sum of `ae - ab` over the recorded splice-map triples plus the sum of
`be - bb` over the donor B-intervals spliced between them. -/
theorem C4_length_consistency (A : Int → Int) (B : Int → Int → Int) (cpl : Int → Int)
    (tb te : Int) (cands : List Gap)
    (res : List Int × List (Int × Int × Int) × List Gap)
    (hwf : ∀ g ∈ cands, g.bb ≤ g.be)
    (h : patcher A B cpl tb te cands = some res) :
    (res.1.length : Int) = sumIvs res.2.1 + sumDonors res.2.2 :=
  patchLoop_length A B cpl tb te cands tb [] [] [] res hwf h (by simp [sumIvs, sumDonors])

/-- Witness for C4 at a concrete patch run: `3 = (1 + 1) + 1`. -/
theorem C4_witness :
    (([10, 25, 12] : List Int).length : Int) =
      sumIvs [(0, 1, 0), (2, 3, 2)] + sumDonors [⟨1, 2, 5, 6, 17, 0, 0, 0, false⟩] :=
  C4_length_consistency (fun p => 10 + p) (fun _ q => 20 + q) (fun x => 3 - x) 0 3
    [⟨1, 2, 5, 6, 17, 0, 0, 0, false⟩]
    ([10, 25, 12], [(0, 1, 0), (2, 3, 2)], [⟨1, 2, 5, 6, 17, 0, 0, 0, false⟩])
    (by decide) (by decide)

theorem sameIv_refl (g : Gap) : sameIv g g := ⟨rfl, rfl, rfl, rfl⟩

theorem sameIv_trans {a b c : Gap} (h1 : sameIv a b) (h2 : sameIv b c) : sameIv a c :=
  ⟨h1.1.trans h2.1, h1.2.1.trans h2.2.1, h1.2.2.1.trans h2.2.2.1, h1.2.2.2.trans h2.2.2.2⟩

theorem mkGapCand_shape {db : DBModel} {w : Int} {prev o : Overlap} {g : Gap}
    (hw : 0 < w) (h : mkGapCand db w prev o = some g) :
    0 < g.ae - g.ab ∧ 0 < g.be - g.bb := by
  simp only [mkGapCand] at h
  obtain ⟨hc1, h⟩ := ite_then_eq_some h
  obtain ⟨hc2, h⟩ := ite_else_eq_some h
  obtain ⟨hc3, h⟩ := ite_else_eq_some h
  obtain ⟨hc4, h⟩ := ite_else_eq_some h
  cases h
  constructor
  · dsimp only
    have hmono : (prev.path.aepos - 1) / w ≤ o.path.abpos / w :=
      Int.ediv_le_ediv hw (by omega)
    have h5 := mul_le_mul_of_nonneg_right hmono hw.le
    have h6 : (o.path.abpos / w + 1) * w = o.path.abpos / w * w + w := by ring
    omega
  · dsimp only
    by_cases hcomp : o.comp = true
    · simp only [if_pos hcomp]; omega
    · simp only [if_neg hcomp]; omega

theorem gapScan_shape {db : DBModel} {w : Int} (hw : 0 < w) :
    ∀ (l : List Overlap) (prev : Overlap) (g : Gap), g ∈ gapScan db w prev l →
      0 < g.ae - g.ab ∧ 0 < g.be - g.bb := by
  intro l
  induction l with
  | nil => intro prev g hg; cases hg
  | cons o rest ih =>
    intro prev g hg
    unfold gapScan at hg
    split at hg
    · next gg heq =>
      rcases List.mem_cons.mp hg with hh | hh
      · subst hh; exact mkGapCand_shape hw heq
      · exact ih o g hh
    · exact ih o g hg

theorem gapCandidates_shape (db : DBModel) (w : Int) (ovls : List Overlap) (g : Gap)
    (hw : 0 < w) (h : g ∈ gapCandidates db w ovls) :
    0 < g.ae - g.ab ∧ 0 < g.be - g.bb := by
  match ovls with
  | [] => cases h
  | o :: rest => exact gapScan_shape hw rest o g h

theorem insertGap_mem {x g : Gap} : ∀ l : List Gap, x ∈ insertGap g l → x = g ∨ x ∈ l := by
  intro l
  induction l with
  | nil => intro h; simpa [insertGap] using h
  | cons hd t ih =>
    intro h
    unfold insertGap at h
    split at h
    · rcases List.mem_cons.mp h with h1 | h1
      · exact Or.inl h1
      · exact Or.inr h1
    · rcases List.mem_cons.mp h with h1 | h1
      · exact Or.inr (List.mem_cons.mpr (Or.inl h1))
      · rcases ih h1 with h2 | h2
        · exact Or.inl h2
        · exact Or.inr (List.mem_cons.mpr (Or.inr h2))

theorem sortGaps_mem {x : Gap} : ∀ l : List Gap, x ∈ sortGaps l → x ∈ l := by
  intro l
  induction l with
  | nil => intro h; cases h
  | cons g t ih =>
    intro h
    have h2 : x ∈ insertGap g (sortGaps t) := h
    rcases insertGap_mem _ h2 with h3 | h3
    · exact h3 ▸ List.mem_cons_self _ _
    · exact List.mem_cons_of_mem _ (ih h3)

theorem dupFold_length : ∀ (l : List Gap) (g : Gap), (dupFold g l).2.length = l.length := by
  intro l
  induction l with
  | nil => intro g; rfl
  | cons hd t ih =>
    intro g
    unfold dupFold
    split
    · split
      · simp [ih]
      · split
        · simp [ih]
        · simp [ih]
    · simp

theorem dupFold_fst : ∀ (l : List Gap) (g : Gap), sameIv (dupFold g l).1 g := by
  intro l
  induction l with
  | nil => intro g; exact sameIv_refl g
  | cons hd t ih =>
    intro g
    unfold dupFold
    split
    · split
      · exact ih g
      · split
        · exact sameIv_trans (ih _) (sameIv_refl g)
        · exact ih g
    · exact sameIv_refl g

theorem dupFold_snd : ∀ (l : List Gap) (g x : Gap), x ∈ (dupFold g l).2 →
    ∃ y ∈ l, sameIv x y := by
  intro l
  induction l with
  | nil => intro g x hx; cases hx
  | cons hd t ih =>
    intro g x hx
    unfold dupFold at hx
    split at hx
    · split at hx
      · rcases List.mem_cons.mp hx with h1 | h1
        · exact ⟨hd, List.mem_cons_self _ _, h1 ▸ sameIv_refl _⟩
        · obtain ⟨y, hy, hs⟩ := ih g x h1
          exact ⟨y, List.mem_cons_of_mem _ hy, hs⟩
      · split at hx
        · rcases List.mem_cons.mp hx with h1 | h1
          · exact ⟨hd, List.mem_cons_self _ _, h1 ▸ ⟨rfl, rfl, rfl, rfl⟩⟩
          · obtain ⟨y, hy, hs⟩ := ih _ x h1
            exact ⟨y, List.mem_cons_of_mem _ hy, hs⟩
        · rcases List.mem_cons.mp hx with h1 | h1
          · exact ⟨hd, List.mem_cons_self _ _, h1 ▸ sameIv_refl _⟩
          · obtain ⟨y, hy, hs⟩ := ih g x h1
            exact ⟨y, List.mem_cons_of_mem _ hy, hs⟩
    · rcases List.mem_cons.mp hx with h1 | h1
      · exact ⟨hd, List.mem_cons_self _ _, h1 ▸ sameIv_refl _⟩
      · exact ⟨x, List.mem_cons_of_mem _ h1, sameIv_refl x⟩

theorem mergeDups_sound (maxgap : Int) :
    ∀ (fuel : Nat) (l : List Gap) (g : Gap), l.length ≤ fuel →
      g ∈ mergeDupsLoop maxgap fuel l → g.support ≠ -1 →
      (maxgap ≠ -1 → g.ae - g.ab < maxgap ∧ |g.be - g.bb| < maxgap) ∧
      ∃ g0 ∈ l, sameIv g g0 := by
  intro fuel
  induction fuel with
  | zero =>
    intro l g hlen hmem _
    match l, hlen with
    | [], _ => cases hmem
    | x :: xs, hlen => simp at hlen
  | succ n ih =>
    intro l g hlen hmem halive
    match l with
    | [] => cases hmem
    | hd :: rest =>
      have hlen2 : rest.length ≤ n := by
        simp only [List.length_cons] at hlen; omega
      simp only [mergeDupsLoop] at hmem
      by_cases h1 : hd.support = -1
      · rw [if_pos h1] at hmem
        rcases List.mem_cons.mp hmem with h | h
        · exact absurd (h ▸ h1) halive
        · obtain ⟨hb, g0, hg0, hs⟩ := ih rest g hlen2 h halive
          exact ⟨hb, g0, List.mem_cons_of_mem _ hg0, hs⟩
      · rw [if_neg h1] at hmem
        by_cases h2 : maxgap ≠ -1 ∧ (hd.ae - hd.ab ≥ maxgap ∨ |hd.be - hd.bb| ≥ maxgap)
        · rw [if_pos h2] at hmem
          rcases List.mem_cons.mp hmem with h | h
          · subst h; simp at halive
          · obtain ⟨hb, g0, hg0, hs⟩ := ih rest g hlen2 h halive
            exact ⟨hb, g0, List.mem_cons_of_mem _ hg0, hs⟩
        · rw [if_neg h2] at hmem
          push_neg at h2
          rcases List.mem_cons.mp hmem with h | h
          · subst h
            obtain ⟨e1, e2, e3, e4⟩ := dupFold_fst rest hd
            refine ⟨fun hmg => ?_, hd, List.mem_cons_self _ _, dupFold_fst rest hd⟩
            rw [e1, e2, e3, e4]
            exact h2 hmg
          · have hlen3 : (dupFold hd rest).2.length ≤ n := by
              rw [dupFold_length]; exact hlen2
            obtain ⟨hb, g0, hg0, hs⟩ := ih _ g hlen3 h halive
            obtain ⟨g1, hg1, hs1⟩ := dupFold_snd rest hd g0 hg0
            exact ⟨hb, g1, List.mem_cons_of_mem _ hg1, sameIv_trans hs hs1⟩

theorem ovlFold_length : ∀ (l : List Gap) (g : Gap), (ovlFold g l).2.length = l.length := by
  intro l
  induction l with
  | nil => intro g; rfl
  | cons hd t ih =>
    intro g
    unfold ovlFold
    split
    · split
      · simp [ih]
      · split
        · simp [ih]
        · simp
    · simp

theorem ovlFold_fst : ∀ (l : List Gap) (g g' : Gap), (ovlFold g l).1 = some g' →
    sameIv g' g := by
  intro l
  induction l with
  | nil =>
    intro g g' h
    cases h
    exact sameIv_refl _
  | cons hd t ih =>
    intro g g' h
    unfold ovlFold at h
    split at h
    · split at h
      · exact ih g g' h
      · split at h
        · exact sameIv_trans (ih _ g' h) (sameIv_refl g)
        · cases h
    · cases h
      exact sameIv_refl _

theorem ovlFold_snd : ∀ (l : List Gap) (g x : Gap), x ∈ (ovlFold g l).2 →
    ∃ y ∈ l, sameIv x y ∧ (x.support ≠ -1 → y.support ≠ -1) := by
  intro l
  induction l with
  | nil => intro g x hx; cases hx
  | cons hd t ih =>
    intro g x hx
    unfold ovlFold at hx
    split at hx
    · split at hx
      · next hdead =>
        rcases List.mem_cons.mp hx with h1 | h1
        · subst h1
          exact ⟨x, List.mem_cons_self _ _, sameIv_refl _, fun h => h⟩
        · obtain ⟨y, hy, hs, ha⟩ := ih g x h1
          exact ⟨y, List.mem_cons_of_mem _ hy, hs, ha⟩
      · next halive =>
        split at hx
        · rcases List.mem_cons.mp hx with h1 | h1
          · refine ⟨hd, List.mem_cons_self _ _, h1 ▸ ⟨rfl, rfl, rfl, rfl⟩, fun h => ?_⟩
            subst h1
            simp at h
          · obtain ⟨y, hy, hs, ha⟩ := ih _ x h1
            exact ⟨y, List.mem_cons_of_mem _ hy, hs, ha⟩
        · rcases List.mem_cons.mp hx with h1 | h1
          · next hwin =>
            exact ⟨hd, List.mem_cons_self _ _, h1 ▸ ⟨rfl, rfl, rfl, rfl⟩,
              fun _ => halive⟩
          · exact ⟨x, List.mem_cons_of_mem _ h1, sameIv_refl x, fun h => h⟩
    · rcases List.mem_cons.mp hx with h1 | h1
      · subst h1
        exact ⟨x, List.mem_cons_self _ _, sameIv_refl _, fun h => h⟩
      · exact ⟨x, List.mem_cons_of_mem _ h1, sameIv_refl x, fun h => h⟩

theorem mergeOvl_sound :
    ∀ (fuel : Nat) (l : List Gap) (g : Gap), l.length ≤ fuel →
      g ∈ mergeOvlLoop fuel l → g.support ≠ -1 →
      ∃ g0 ∈ l, g0.support ≠ -1 ∧ sameIv g g0 := by
  intro fuel
  induction fuel with
  | zero =>
    intro l g hlen hmem _
    match l, hlen with
    | [], _ => cases hmem
    | x :: xs, hlen => simp at hlen
  | succ n ih =>
    intro l g hlen hmem halive
    match l with
    | [] => cases hmem
    | hd :: rest =>
      have hlen2 : rest.length ≤ n := by
        simp only [List.length_cons] at hlen; omega
      simp only [mergeOvlLoop] at hmem
      by_cases h1 : hd.support = -1
      · rw [if_pos h1] at hmem
        rcases List.mem_cons.mp hmem with h | h
        · exact absurd (h ▸ h1) halive
        · obtain ⟨g0, hg0, ha0, hs⟩ := ih rest g hlen2 h halive
          exact ⟨g0, List.mem_cons_of_mem _ hg0, ha0, hs⟩
      · rw [if_neg h1] at hmem
        split at hmem
        · next g' rest' heq =>
          have heq1 : (ovlFold hd rest).1 = some g' := by rw [heq]
          have heq2 : (ovlFold hd rest).2 = rest' := by rw [heq]
          rcases List.mem_cons.mp hmem with h | h
          · exact ⟨hd, List.mem_cons_self _ _, h1, h ▸ ovlFold_fst rest hd g' heq1⟩
          · have hlen3 : rest'.length ≤ n := by
              rw [← heq2, ovlFold_length]; exact hlen2
            obtain ⟨g0, hg0, ha0, hs⟩ := ih rest' g hlen3 h halive
            obtain ⟨y, hy, hs1, hal⟩ := ovlFold_snd rest hd g0 (heq2 ▸ hg0)
            exact ⟨y, List.mem_cons_of_mem _ hy, hal ha0, sameIv_trans hs hs1⟩
        · next rest' heq =>
          have heq2 : (ovlFold hd rest).2 = rest' := by rw [heq]
          rcases List.mem_cons.mp hmem with h | h
          · subst h; simp at halive
          · have hlen3 : rest'.length ≤ n := by
              rw [← heq2, ovlFold_length]; exact hlen2
            obtain ⟨g0, hg0, ha0, hs⟩ := ih rest' g hlen3 h halive
            obtain ⟨y, hy, hs1, hal⟩ := ovlFold_snd rest hd g0 (heq2 ▸ hg0)
            exact ⟨y, List.mem_cons_of_mem _ hy, hal ha0, sameIv_trans hs hs1⟩

theorem spanFilter_alive {ovls : List Overlap} {l : List Gap} {g : Gap}
    (h : g ∈ spanFilter ovls l) (ha : g.support ≠ -1) : g ∈ l := by
  simp only [spanFilter, List.mem_map] at h
  obtain ⟨g0, hg0, heq⟩ := h
  by_cases hsp : spanners ovls g0.ab g0.ae > 10
  · rw [if_pos hsp] at heq
    rw [← heq] at ha
    simp at ha
  · rw [if_neg hsp] at heq
    exact heq ▸ hg0

theorem compactGaps_mem {qa : List Int} {w lowq : Int} {l : List Gap} {g : Gap}
    (h : g ∈ compactGaps qa w lowq l) : g ∈ l ∧ g.support ≥ 5 := by
  simp only [compactGaps, List.mem_filter, Bool.and_eq_true, decide_eq_true_eq] at h
  exact ⟨h.1, h.2.1⟩

/-- Claim C7 (amended): with `maxgap` configured, every gap candidate that
survives the merger satisfies `ae - ab < maxgap` and `be - bb < maxgap`
(hence also `|(be - bb) - (ae - ab)| < maxgap`); WeakFinder candidates are
appended after the merger and bypass the cap (see the counterexample). -/
theorem C7_amended_merger_cap (db : DBModel) (cfg : FixConfig) (ovls : List Overlap)
    (g : Gap) (hw : 0 < cfg.twidth) (hm : cfg.maxgap ≠ -1)
    (h : g ∈ mergedGapCandidates db cfg ovls) :
    g.ae - g.ab < cfg.maxgap ∧ g.be - g.bb < cfg.maxgap ∧
    |(g.be - g.bb) - (g.ae - g.ab)| < cfg.maxgap := by
  simp only [mergedGapCandidates] at h
  obtain ⟨h, hsup⟩ := compactGaps_mem h
  have halive : g.support ≠ -1 := by omega
  have h2 := spanFilter_alive h halive
  obtain ⟨g0, hg0, ha0, hs0⟩ := mergeOvl_sound _ _ g (le_refl _) h2 halive
  obtain ⟨hb, g1, hg1, hs1⟩ := mergeDups_sound cfg.maxgap _ _ g0 (le_refl _) hg0 ha0
  have hg2 := sortGaps_mem _ hg1
  obtain ⟨hsh1, hsh2⟩ := gapCandidates_shape db cfg.twidth ovls g1 hw hg2
  have hbs := hb hm
  obtain ⟨e1, e2, e3, e4⟩ := sameIv_trans hs0 hs1
  obtain ⟨f1, f2, f3, f4⟩ := hs0
  have habs := abs_lt.mp hbs.2
  have hbs1 := hbs.1
  refine ⟨by omega, by omega, abs_lt.mpr ⟨by omega, by omega⟩⟩

/-- Witness for the amended C7: a five-fold supported merged gap candidate
obeys all three bounds. -/
theorem C7_witness :
    gC7w.ae - gC7w.ab < cfgStd.maxgap ∧ gC7w.be - gC7w.bb < cfgStd.maxgap ∧
    |(gC7w.be - gC7w.bb) - (gC7w.ae - gC7w.ab)| < cfgStd.maxgap :=
  C7_amended_merger_cap C7wdb cfgStd C7wovls gC7w (by decide) (by decide) (by decide)
